import Mathlib

/-!
Shallow embedding of the code generated by the `perstruct` crate's two
attribute macros, checked against the repository's specification.

The repository contains two code generators:

* `perstruct-proc-macros/src/lib.rs` — the `#[perstruct]` macro.  The
  generated struct carries `_perstruct_dirty_fields :
  std::collections::HashSet<&'static str>`; `from_map` seeds the dirty set
  with every non-skipped external key, removes a key on successful decode,
  collects `deserialization_errors` and `unknown_fields`;
  `perstruct_get_changes` returns `Result<Vec<(&str, String)>, String>`
  (encode errors propagate via `?`); fields may carry a `skip` attribute.

* `src/lib.rs` — the older `#[settings]` macro.  The generated struct
  carries `_perstruct_dirty_fields : std::vec::Vec<&'static str>`; every
  setter does `push` (so the same key can occur several times);
  `from_map` neither seeds the dirty list nor reports unknown keys;
  `perstruct_get_changes` returns `Vec<(&str, String)>` and calls
  `serde_json::to_string(..).unwrap()` — a panic on encode failure.

Field values of all struct fields are modelled by a single type `Val`; each
field carries its own codec (`dec`/`enc`, both fallible, mirroring
`serde_json::from_str` / `serde_json::to_string` returning `Result`), its
intrinsic `Default::default()` value, and the parsed attribute data
(`key`, `default_fn`, `default`).  The `HashSet` is modelled as a
duplicate-free `List String` with membership-test insert and filter
remove; its iteration order is one concrete order, which is sound because
the source makes no ordering promise for set iteration.  A Rust `HashMap`
input is modelled as a `List (String × String)` iterated in list order;
where faithfulness to a map matters, theorems assume the key list is
`Nodup`.  A panic is modelled as `Option.none`.
-/

namespace Perstruct

/-- A non-skipped field as recorded by `process_struct` /
`expand_settings`: Rust field identifier, optional `key = "…"` attribute,
optional `default_fn` attribute (a zero-argument producer), optional
`default` literal attribute, the type's intrinsic `Default::default()`
value, and the serde codec for the field's type. -/
structure PField (Val : Type) where
  ident : String
  key : Option String
  default_fn : Option (Unit → Val)
  default_lit : Option Val
  intrinsic : Val
  dec : String → Except String Val
  enc : Val → Except String String

/-- A field carrying the `#[perstruct(skip)]` attribute: `process_struct`
keeps only its identifier (and, implicitly, its type, here its intrinsic
default value); every other attribute is dropped. -/
structure SkField (Val : Type) where
  ident : String
  intrinsic : Val

/-- A raw struct field as seen by `process_struct` before the
skip-dispatch: all parsed attributes plus the skip flag. -/
structure FieldDecl (Val : Type) where
  ident : String
  attr_key : Option String
  attr_default_fn : Option (Unit → Val)
  attr_default_lit : Option Val
  skip : Bool
  intrinsic : Val
  dec : String → Except String Val
  enc : Val → Except String String

/-- `process_struct`'s field loop: a `skip` field goes to the skipped
list keeping only its identifier (its `key`/`default`/`default_fn`
attributes are dropped); any other field becomes a `PField`. -/
def processStruct {Val : Type} : List (FieldDecl Val) → List (PField Val) × List (SkField Val)
  | [] => ([], [])
  | d :: rest =>
    let (fs, sks) := processStruct rest
    if d.skip then
      (fs, ⟨d.ident, d.intrinsic⟩ :: sks)
    else
      (⟨d.ident, d.attr_key, d.attr_default_fn, d.attr_default_lit, d.intrinsic, d.dec, d.enc⟩ :: fs, sks)

/-- The external key of a field:
`field.key.clone().unwrap_or(field.ident.to_string())`. -/
def keyOf {Val : Type} (f : PField Val) : String :=
  f.key.getD f.ident

/-- `Self::perstruct_keys()`: the external keys of the non-skipped fields
in declaration order. -/
def perstruct_keys {Val : Type} (fields : List (PField Val)) : List String :=
  fields.map keyOf

/-- The runtime state of a generated struct: one value slot per field
identifier plus the `_perstruct_dirty_fields` collection (a
duplicate-free list for the `#[perstruct]` `HashSet`, an arbitrary list
for the `#[settings]` `Vec`). -/
structure Record (Val : Type) where
  values : String → Val
  dirty : List String

/-- `HashSet::insert` on the dirty-set model: no-op when present,
append otherwise. -/
def insertSet (k : String) (l : List String) : List String :=
  if k ∈ l then l else l ++ [k]

/-- `HashSet::remove` on the dirty-set model. -/
def removeSet (k : String) (l : List String) : List String :=
  l.filter (fun x => x ≠ k)

/-- Pointwise update of the value assignment at one field identifier. -/
def setValue {Val : Type} (vs : String → Val) (id : String) (v : Val) : String → Val :=
  fun x => if x = id then v else vs x

/-- The field initializer emitted by `generate_default_impl` for a
non-skipped field: `default_fn()` if a `default_fn` attribute is present,
else the `default` literal if present, else `Default::default()`.
(The source checks `default_fn` FIRST: `if let Some(default_fn) = …
{ … } else if let Some(default_lit) = … { … } else { Default::default() }`.) -/
def resolvedDefault {Val : Type} (f : PField Val) : Val :=
  match f.default_fn with
  | some fn => fn ()
  | none =>
    match f.default_lit with
    | some v => v
    | none => f.intrinsic

/-- The generated `Default::default()`: every non-skipped field gets its
resolved default, every skipped field gets `Default::default()`, and
`_perstruct_dirty_fields` is empty. -/
def defaultRecord {Val : Type} [Inhabited Val] (fields : List (PField Val))
    (skipped : List (SkField Val)) : Record Val where
  values := fun id =>
    match fields.find? (fun f => f.ident = id) with
    | some f => resolvedDefault f
    | none =>
      match skipped.find? (fun s => s.ident = id) with
      | some s => s.intrinsic
      | none => default
  dirty := []

/-- Key dispatch shared by `from_map` and `perstruct_get_changes`: the
first generated match arm whose key literal equals the scrutinee string. -/
def findField {Val : Type} (fields : List (PField Val)) (k : String) : Option (PField Val) :=
  fields.find? (fun f => keyOf f = k)

/-- The generated `set_<field>` of the `#[perstruct]` macro: overwrite the
value slot unconditionally and `HashSet::insert` the external key. -/
def setField {Val : Type} (f : PField Val) (v : Val) (r : Record Val) : Record Val where
  values := setValue r.values f.ident v
  dirty := insertSet (keyOf f) r.dirty

/-- The generated `update_<field>` of the `#[perstruct]` macro: apply the
caller's mutator to the value slot and `HashSet::insert` the external key. -/
def updateField {Val : Type} (f : PField Val) (g : Val → Val) (r : Record Val) : Record Val where
  values := setValue r.values f.ident (g (r.values f.ident))
  dirty := insertSet (keyOf f) r.dirty

/-- The generated `set_<field>` of the `#[settings]` macro: overwrite the
value slot and `Vec::push` the external key (duplicates possible). -/
def settings_setField {Val : Type} (f : PField Val) (v : Val) (r : Record Val) : Record Val where
  values := setValue r.values f.ident v
  dirty := r.dirty ++ [keyOf f]

/-- `perstruct_saved` (both macros): clear the dirty collection. -/
def perstruct_saved {Val : Type} (r : Record Val) : Record Val :=
  { r with dirty := [] }

/-- Loop body of the `#[perstruct]` `perstruct_get_changes`: for each key
of the dirty set, the matching field's current value is encoded —
`serde_json::to_string(&self.field).map_err(|e| e.to_string())?` — so an
encode error aborts the whole call with `Err`; a key matching no arm
falls to the `_ => {}` arm and is skipped. -/
def getChangesGo {Val : Type} (fields : List (PField Val)) (r : Record Val) :
    List String → Except String (List (String × String))
  | [] => .ok []
  | k :: rest =>
    match findField fields k with
    | some f =>
      match f.enc (r.values f.ident) with
      | .ok s =>
        match getChangesGo fields r rest with
        | .ok tl => .ok ((k, s) :: tl)
        | .error e => .error e
      | .error e => .error e
    | none => getChangesGo fields r rest

/-- The `#[perstruct]` `perstruct_get_changes`. -/
def perstruct_get_changes {Val : Type} (fields : List (PField Val)) (r : Record Val) :
    Except String (List (String × String)) :=
  getChangesGo fields r r.dirty

/-- Loop body of the `#[settings]` `perstruct_get_changes`:
`serde_json::to_string(&self.field).unwrap()` — an encode error is a
panic, modelled as `none`. -/
def settingsChangesGo {Val : Type} (fields : List (PField Val)) (r : Record Val) :
    List String → Option (List (String × String))
  | [] => some []
  | k :: rest =>
    match findField fields k with
    | some f =>
      match f.enc (r.values f.ident) with
      | .ok s =>
        match settingsChangesGo fields r rest with
        | some tl => some ((k, s) :: tl)
        | none => none
      | .error _ => none
    | none => settingsChangesGo fields r rest

/-- The `#[settings]` `perstruct_get_changes` (`none` = panic). -/
def settings_get_changes {Val : Type} (fields : List (PField Val)) (r : Record Val) :
    Option (List (String × String)) :=
  settingsChangesGo fields r r.dirty

/-- The `PerstructLoadResult` struct of the `perstruct` runtime crate. -/
structure PerstructLoadResult (Val : Type) where
  value : Record Val
  deserialization_errors : List (String × String)
  unknown_fields : List String

/-- The mutable state of the `from_map` loop of the `#[perstruct]` macro:
`struct_value`'s field slots, the local `dirty_fields` set, and the two
diagnostic vectors. -/
structure LoadState (Val : Type) where
  values : String → Val
  dirty : List String
  errors : List (String × String)
  unknown : List String

/-- One iteration of the `#[perstruct]` `from_map` loop over a map entry:
a key matching a field arm decodes via `serde_json::from_str`; on `Ok`
the slot is overwritten and the key removed from `dirty_fields`, on `Err`
`(key, e.to_string())` is pushed to `deserialization_errors`; a
non-matching key is pushed to `unknown_fields`. -/
def loadStep {Val : Type} (fields : List (PField Val)) (st : LoadState Val)
    (entry : String × String) : LoadState Val :=
  match findField fields entry.1 with
  | some f =>
    match f.dec entry.2 with
    | .ok v =>
      { st with values := setValue st.values f.ident v, dirty := removeSet entry.1 st.dirty }
    | .error e =>
      { st with errors := st.errors ++ [(entry.1, e)] }
  | none =>
    { st with unknown := st.unknown ++ [entry.1] }

/-- The seeding of `dirty_fields` in the `#[perstruct]` `from_map`:
`vec![key1, key2, …].into_iter().collect::<HashSet<_>>()`. -/
def seedDirty {Val : Type} (fields : List (PField Val)) : List String :=
  (fields.map keyOf).foldl (fun acc k => insertSet k acc) []

/-- The `#[perstruct]` `from_map`: start from `Self::default()`, seed
`dirty_fields` with all external keys, fold the loop body over the map
entries, then install the final `dirty_fields` into the struct. -/
def from_map {Val : Type} [Inhabited Val] (fields : List (PField Val))
    (skipped : List (SkField Val)) (m : List (String × String)) : PerstructLoadResult Val :=
  let init : LoadState Val :=
    { values := (defaultRecord fields skipped).values
      dirty := seedDirty fields
      errors := []
      unknown := [] }
  let fin := m.foldl (loadStep fields) init
  { value := { values := fin.values, dirty := fin.dirty }
    deserialization_errors := fin.errors
    unknown_fields := fin.unknown }

/-- Does this map entry hit a field arm and decode successfully?
(Mirrors the `Ok` branch condition of the `from_map` loop.) -/
def decodeOk {Val : Type} (fields : List (PField Val)) (e : String × String) : Bool :=
  match findField fields e.1 with
  | some f =>
    match f.dec e.2 with
    | .ok _ => true
    | .error _ => false
  | none => false

/-- The `deserialization_errors` contribution of one map entry. -/
def errOf {Val : Type} (fields : List (PField Val)) (e : String × String) :
    Option (String × String) :=
  match findField fields e.1 with
  | some f =>
    match f.dec e.2 with
    | .ok _ => none
    | .error msg => some (e.1, msg)
  | none => none

/-- The `unknown_fields` contribution of one map entry. -/
def unknownOf {Val : Type} (fields : List (PField Val)) (e : String × String) : Option String :=
  match findField fields e.1 with
  | some _ => none
  | none => some e.1

/-- Does this map entry overwrite the value slot of field identifier
`id`?  True exactly when it matches a field arm with that identifier and
decodes successfully. -/
def hitsField {Val : Type} (fields : List (PField Val)) (id : String) (e : String × String) : Bool :=
  match findField fields e.1 with
  | some f =>
    if f.ident = id then decodeOk fields e else false
  | none => false

/-- The dirty-set invariant of claim C9: every member of the dirty
collection is the external key of some non-skipped field. -/
def DirtyInv {Val : Type} (fields : List (PField Val)) (r : Record Val) : Prop :=
  ∀ k ∈ r.dirty, ∃ f ∈ fields, keyOf f = k

/-- Decimal-digit parser over a character list (kernel-computable). -/
def digitsToNat : List Char → Option Nat
  | [] => none
  | l =>
    l.foldl
      (fun acc c =>
        match acc with
        | none => none
        | some n =>
          if c.toNat ≥ 48 ∧ c.toNat ≤ 57 then some (n * 10 + (c.toNat - 48)) else none)
      (some 0)

/-- Integer decode used by the concrete schemas below, standing in for
`serde_json::from_str::<i32>` (non-negative decimal literals only). -/
def intDec : String → Except String Int := fun s =>
  match digitsToNat s.data with
  | some n => .ok (n : Int)
  | none => .error ("invalid integer: " ++ s)

/-- Integer encode used by the concrete schemas below, standing in for
`serde_json::to_string`. -/
def intEnc : Int → Except String String := fun n => .ok (toString n)

/-- An encoder whose `serde::Serialize` implementation always fails,
exercising the encode-error path of `perstruct_get_changes`. -/
def failEnc : Int → Except String String := fun _ => .error "encode failed"

/-- Concrete field mirroring the test schema's
`#[perstruct(key = "b")] pub a: i32`. -/
def fieldA : PField Int :=
  ⟨"a", some "b", none, none, 0, intDec, intEnc⟩

/-- Concrete field mirroring `#[perstruct(default = 2)] bar: i32`. -/
def fieldBar : PField Int :=
  ⟨"bar", none, none, some 2, 0, intDec, intEnc⟩

/-- Concrete field mirroring `#[perstruct(default_fn = "default_foo")] foo`
(with an integer payload whose producer returns 5). -/
def fieldFoo : PField Int :=
  ⟨"foo", none, some (fun _ => 5), none, 0, intDec, intEnc⟩

/-- The three-field concrete schema used by several witnesses. -/
def exFields : List (PField Int) := [fieldA, fieldFoo, fieldBar]

/-- A field like `fieldA` but whose encoder always fails. -/
def fieldBad : PField Int :=
  ⟨"a", some "b", none, none, 0, intDec, failEnc⟩

/-- A field carrying BOTH a `default` literal (1) and a `default_fn`
attribute (producing 2): two separate `#[perstruct(...)]` attributes on
one field set both options. -/
def fieldBoth : PField Int :=
  ⟨"x", none, some (fun _ => 2), some 1, 0, intDec, intEnc⟩

/-- A string-valued field with the identity codec. -/
def fieldStr : PField String :=
  ⟨"a", some "b", none, none, "", fun s => .ok s, fun v => .ok v⟩

/-- The input map of the C2 witness: `foo`'s payload is malformed. -/
def c2Map : List (String × String) := [("b", "3"), ("foo", "nope"), ("bar", "7")]

/-- A `#[settings]` record on which `set_a` was called twice (values 1
then 2): the `Vec` dirty list now holds `"b"` twice. -/
def c3Rec : Record Int :=
  settings_setField fieldA 2 (settings_setField fieldA 1 (defaultRecord [fieldA] []))

/-- A `#[perstruct]` record on which `set_a` was called twice. -/
def c3PRec : Record Int :=
  setField fieldA 2 (setField fieldA 1 (defaultRecord [fieldA] []))

/-- A `#[settings]` record holding a dirty field whose encoder fails. -/
def c4Rec : Record Int :=
  settings_setField fieldBad 1 (defaultRecord [fieldBad] [])

/-- Concrete non-skipped declaration `#[perstruct(key = "b")] a: i32`. -/
def declA : FieldDecl Int :=
  ⟨"a", some "b", none, none, false, 0, intDec, intEnc⟩

/-- Concrete skipped declaration carrying (ignored) `key`, `default` and
`default_fn` attributes. -/
def declSkip : FieldDecl Int :=
  ⟨"secret", some "hidden", some (fun _ => 9), some 7, true, 0, intDec, intEnc⟩

/-- The two-field declaration list of the C10 witness. -/
def exDecls : List (FieldDecl Int) := [declA, declSkip]

/-- A non-skipped declaration whose `key` attribute reuses the skipped
field's name: `#[perstruct(key = "secret")] a: i32`.  Legal schema —
idents are unique and `process_struct` performs no key-collision check. -/
def declColl : FieldDecl Int :=
  ⟨"a", some "secret", none, none, false, 0, intDec, intEnc⟩

/-- A declaration list in which a non-skipped field's external key equals
the skipped field's name. -/
def collDecls : List (FieldDecl Int) := [declColl, declSkip]

/-- The processed form of `declColl`. -/
def fieldColl : PField Int :=
  ⟨"a", some "secret", none, none, 0, intDec, intEnc⟩

/-- A record over the collision schema whose non-skipped field was set,
putting the key `"secret"` into the dirty set. -/
def c10Rec : Record Int :=
  setField fieldColl 3 (defaultRecord (processStruct collDecls).1 (processStruct collDecls).2)

/-- A string-valued `#[perstruct]` record with one dirty field, used for
the round-trip witness. -/
def c8Rec : Record String :=
  setField fieldStr "hello" (defaultRecord [fieldStr] [])

/- ###### end of definitions / concrete instances ###### -/

section Lemmas

variable {Val : Type}

theorem mem_insertSet {k k' : String} {l : List String} :
    k ∈ insertSet k' l ↔ k ∈ l ∨ k = k' := by
  unfold insertSet
  by_cases h : k' ∈ l
  · simp only [if_pos h]
    constructor
    · exact Or.inl
    · rintro (hk | rfl)
      · exact hk
      · exact h
  · simp [if_neg h]

theorem nodup_insertSet {k : String} {l : List String} (h : l.Nodup) :
    (insertSet k l).Nodup := by
  unfold insertSet
  by_cases hk : k ∈ l
  · simpa [if_pos hk]
  · simp only [if_neg hk]
    simpa [List.nodup_append] using ⟨h, fun hmem => hk hmem⟩

theorem mem_removeSet {k k' : String} {l : List String} :
    k ∈ removeSet k' l ↔ k ∈ l ∧ k ≠ k' := by
  simp [removeSet, List.mem_filter]

theorem nodup_removeSet {k : String} {l : List String} (h : l.Nodup) :
    (removeSet k l).Nodup :=
  h.filter _

theorem mem_foldl_insertSet {k : String} (l : List String) (acc : List String) :
    k ∈ l.foldl (fun a x => insertSet x a) acc ↔ k ∈ acc ∨ k ∈ l := by
  induction l generalizing acc with
  | nil => simp
  | cons x xs ih =>
    simp only [List.foldl_cons, ih, mem_insertSet, List.mem_cons]
    tauto

theorem mem_seedDirty {k : String} {fields : List (PField Val)} :
    k ∈ seedDirty fields ↔ k ∈ perstruct_keys fields := by
  unfold seedDirty perstruct_keys
  simpa using mem_foldl_insertSet (fields.map keyOf) []

theorem findField_eq_some {fields : List (PField Val)} {k : String} {f : PField Val}
    (h : findField fields k = some f) : keyOf f = k ∧ f ∈ fields := by
  refine ⟨?_, List.mem_of_find?_eq_some h⟩
  have := List.find?_some h
  simpa using this

theorem findField_eq_none_iff {fields : List (PField Val)} {k : String} :
    findField fields k = none ↔ ∀ f ∈ fields, keyOf f ≠ k := by
  unfold findField
  rw [List.find?_eq_none]
  simp

theorem findField_isSome {fields : List (PField Val)} {k : String}
    (h : ∃ f ∈ fields, keyOf f = k) : (findField fields k).isSome := by
  unfold findField
  rw [List.find?_isSome]
  simpa using h

theorem find?_ident_of_nodup {fields : List (PField Val)} {f : PField Val}
    (hnd : (fields.map PField.ident).Nodup) (hf : f ∈ fields) :
    fields.find? (fun g => g.ident = f.ident) = some f := by
  induction fields with
  | nil => cases hf
  | cons a rest ih =>
    rcases List.mem_cons.mp hf with rfl | hmem
    · exact List.find?_cons_of_pos _ (by simp)
    · have ha : a.ident ∉ rest.map PField.ident := (List.nodup_cons.mp hnd).1
      have hne : a.ident ≠ f.ident := by
        intro heq
        exact ha (heq ▸ List.mem_map_of_mem PField.ident hmem)
      rw [List.find?_cons_of_neg _ (by simpa using hne)]
      exact ih (List.nodup_cons.mp hnd).2 hmem

theorem loadStep_dirty {fields : List (PField Val)} (st : LoadState Val) (e : String × String) :
    (loadStep fields st e).dirty =
      if decodeOk fields e then removeSet e.1 st.dirty else st.dirty := by
  unfold loadStep decodeOk
  cases hf : findField fields e.1 with
  | none => simp
  | some f => cases hd : f.dec e.2 <;> simp [hd]

theorem loadStep_errors {fields : List (PField Val)} (st : LoadState Val) (e : String × String) :
    (loadStep fields st e).errors = st.errors ++ (errOf fields e).toList := by
  unfold loadStep errOf
  cases hf : findField fields e.1 with
  | none => simp
  | some f => cases hd : f.dec e.2 <;> simp [hd]

theorem loadStep_unknown {fields : List (PField Val)} (st : LoadState Val) (e : String × String) :
    (loadStep fields st e).unknown = st.unknown ++ (unknownOf fields e).toList := by
  unfold loadStep unknownOf
  cases hf : findField fields e.1 with
  | none => simp
  | some f => cases hd : f.dec e.2 <;> simp [hd]

theorem loadStep_values_no_hit {fields : List (PField Val)} {st : LoadState Val}
    {e : String × String} {id : String} (h : hitsField fields id e = false) :
    (loadStep fields st e).values id = st.values id := by
  unfold loadStep
  cases hf : findField fields e.1 with
  | none => simp
  | some f =>
    simp only [hitsField, hf] at h
    cases hd : f.dec e.2 with
    | error msg => simp [hd]
    | ok v =>
      have hok : decodeOk fields e = true := by
        simp only [decodeOk, hf, hd]
      have hne : f.ident ≠ id := by
        intro heq
        rw [if_pos heq, hok] at h
        cases h
      simp [hd, setValue, Ne.symm hne]

theorem loadStep_values_hit {fields : List (PField Val)} {st : LoadState Val}
    {e : String × String} {f : PField Val} {v : Val}
    (hf : findField fields e.1 = some f) (hd : f.dec e.2 = .ok v) :
    (loadStep fields st e).values f.ident = v := by
  unfold loadStep
  simp only [hf, hd]
  simp [setValue]

theorem foldl_dirty_mem {fields : List (PField Val)} (m : List (String × String))
    (st : LoadState Val) (k : String) :
    k ∈ (m.foldl (loadStep fields) st).dirty ↔
      k ∈ st.dirty ∧ ∀ e ∈ m, ¬(e.1 = k ∧ decodeOk fields e = true) := by
  induction m generalizing st with
  | nil => simp
  | cons e m ih =>
    rw [List.foldl_cons, ih, loadStep_dirty]
    constructor
    · rintro ⟨hk, hrest⟩
      by_cases hok : decodeOk fields e = true
      · rw [if_pos hok] at hk
        obtain ⟨hk', hne⟩ := mem_removeSet.mp hk
        refine ⟨hk', ?_⟩
        intro e' he'
        rcases List.mem_cons.mp he' with rfl | hm
        · rintro ⟨h1, _⟩
          exact hne h1.symm
        · exact hrest e' hm
      · rw [if_neg hok] at hk
        refine ⟨hk, ?_⟩
        intro e' he'
        rcases List.mem_cons.mp he' with rfl | hm
        · rintro ⟨_, h2⟩
          exact hok h2
        · exact hrest e' hm
    · rintro ⟨hk, hall⟩
      refine ⟨?_, fun e' hm => hall e' (List.mem_cons_of_mem _ hm)⟩
      by_cases hok : decodeOk fields e = true
      · rw [if_pos hok]
        refine mem_removeSet.mpr ⟨hk, ?_⟩
        intro heq
        exact hall e (List.mem_cons_self _ _) ⟨heq.symm, hok⟩
      · rw [if_neg hok]
        exact hk

theorem foldl_errors {fields : List (PField Val)} (m : List (String × String))
    (st : LoadState Val) :
    (m.foldl (loadStep fields) st).errors = st.errors ++ m.filterMap (errOf fields) := by
  induction m generalizing st with
  | nil => simp
  | cons e m ih =>
    rw [List.foldl_cons, ih, loadStep_errors]
    cases h : errOf fields e <;> simp [h, List.filterMap_cons]

theorem foldl_unknown {fields : List (PField Val)} (m : List (String × String))
    (st : LoadState Val) :
    (m.foldl (loadStep fields) st).unknown = st.unknown ++ m.filterMap (unknownOf fields) := by
  induction m generalizing st with
  | nil => simp
  | cons e m ih =>
    rw [List.foldl_cons, ih, loadStep_unknown]
    cases h : unknownOf fields e <;> simp [h, List.filterMap_cons]

theorem foldl_values_no_hit {fields : List (PField Val)} {m : List (String × String)}
    {st : LoadState Val} {id : String} (h : ∀ e ∈ m, hitsField fields id e = false) :
    (m.foldl (loadStep fields) st).values id = st.values id := by
  induction m generalizing st with
  | nil => rfl
  | cons e m ih =>
    rw [List.foldl_cons]
    rw [ih (fun e' he' => h e' (List.mem_cons_of_mem _ he'))]
    exact loadStep_values_no_hit (h e (List.mem_cons_self _ _))

theorem loadStep_congr {fields : List (PField Val)} {st₁ st₂ : LoadState Val}
    (e : String × String) (hv : st₁.values = st₂.values) (hd : st₁.dirty = st₂.dirty)
    (he : st₁.errors = st₂.errors) :
    (loadStep fields st₁ e).values = (loadStep fields st₂ e).values ∧
    (loadStep fields st₁ e).dirty = (loadStep fields st₂ e).dirty ∧
    (loadStep fields st₁ e).errors = (loadStep fields st₂ e).errors := by
  unfold loadStep
  cases hf : findField fields e.1 with
  | none => exact ⟨hv, hd, he⟩
  | some f => cases hdec : f.dec e.2 <;> simp [hdec, hv, hd, he]

theorem foldl_core_congr {fields : List (PField Val)} (m : List (String × String))
    {st₁ st₂ : LoadState Val} (hv : st₁.values = st₂.values) (hd : st₁.dirty = st₂.dirty)
    (he : st₁.errors = st₂.errors) :
    (m.foldl (loadStep fields) st₁).values = (m.foldl (loadStep fields) st₂).values ∧
    (m.foldl (loadStep fields) st₁).dirty = (m.foldl (loadStep fields) st₂).dirty ∧
    (m.foldl (loadStep fields) st₁).errors = (m.foldl (loadStep fields) st₂).errors := by
  induction m generalizing st₁ st₂ with
  | nil => exact ⟨hv, hd, he⟩
  | cons e m ih =>
    rw [List.foldl_cons, List.foldl_cons]
    obtain ⟨hv', hd', he'⟩ := loadStep_congr e hv hd he
    exact ih hv' hd' he'

theorem from_map_errors {fields : List (PField Val)} [Inhabited Val]
    (skipped : List (SkField Val)) (m : List (String × String)) :
    (from_map fields skipped m).deserialization_errors = m.filterMap (errOf fields) := by
  simp only [from_map]
  rw [foldl_errors]
  simp

theorem from_map_unknown {fields : List (PField Val)} [Inhabited Val]
    (skipped : List (SkField Val)) (m : List (String × String)) :
    (from_map fields skipped m).unknown_fields = m.filterMap (unknownOf fields) := by
  simp only [from_map]
  rw [foldl_unknown]
  simp

theorem from_map_dirty_mem {fields : List (PField Val)} [Inhabited Val]
    (skipped : List (SkField Val)) (m : List (String × String)) (k : String) :
    k ∈ (from_map fields skipped m).value.dirty ↔
      k ∈ perstruct_keys fields ∧ ∀ e ∈ m, ¬(e.1 = k ∧ decodeOk fields e = true) := by
  simp only [from_map]
  rw [foldl_dirty_mem]
  simp [mem_seedDirty]

theorem from_map_values_no_hit {fields : List (PField Val)} [Inhabited Val]
    {skipped : List (SkField Val)} {m : List (String × String)} {id : String}
    (h : ∀ e ∈ m, hitsField fields id e = false) :
    (from_map fields skipped m).value.values id = (defaultRecord fields skipped).values id := by
  simp only [from_map]
  exact foldl_values_no_hit h

theorem getChangesGo_ok_keys {fields : List (PField Val)} {r : Record Val}
    {l : List String} {ch : List (String × String)}
    (h : getChangesGo fields r l = .ok ch) :
    ch.map Prod.fst = l.filter (fun k => (findField fields k).isSome) := by
  induction l generalizing ch with
  | nil =>
    cases h
    simp
  | cons k rest ih =>
    cases hf : findField fields k with
    | none =>
      simp only [getChangesGo, hf] at h
      rw [List.filter_cons_of_neg (by simp [hf])]
      exact ih h
    | some f =>
      cases he : f.enc (r.values f.ident) with
      | error e =>
        simp only [getChangesGo, hf, he] at h
        exact Except.noConfusion h
      | ok s =>
        cases hr : getChangesGo fields r rest with
        | error e =>
          simp only [getChangesGo, hf, he, hr] at h
          exact Except.noConfusion h
        | ok tl =>
          simp only [getChangesGo, hf, he, hr] at h
          cases h
          rw [List.filter_cons_of_pos (by simp [hf])]
          simpa using ih hr

theorem getChangesGo_mem {fields : List (PField Val)} {r : Record Val}
    {l : List String} {ch : List (String × String)} {k s : String}
    (h : getChangesGo fields r l = .ok ch) (hmem : (k, s) ∈ ch) :
    k ∈ l ∧ ∃ f, findField fields k = some f ∧ f.enc (r.values f.ident) = .ok s := by
  induction l generalizing ch with
  | nil =>
    cases h
    cases hmem
  | cons k' rest ih =>
    cases hf : findField fields k' with
    | none =>
      simp only [getChangesGo, hf] at h
      obtain ⟨hl, hrest⟩ := ih h hmem
      exact ⟨List.mem_cons_of_mem _ hl, hrest⟩
    | some f =>
      cases he : f.enc (r.values f.ident) with
      | error e =>
        simp only [getChangesGo, hf, he] at h
        exact Except.noConfusion h
      | ok s' =>
        cases hr : getChangesGo fields r rest with
        | error e =>
          simp only [getChangesGo, hf, he, hr] at h
          exact Except.noConfusion h
        | ok tl =>
          simp only [getChangesGo, hf, he, hr] at h
          cases h
          rcases List.mem_cons.mp hmem with heq | hmem'
          · have hk : k = k' := congrArg Prod.fst heq
            have hs : s = s' := congrArg Prod.snd heq
            subst hk
            subst hs
            exact ⟨List.mem_cons_self _ _, f, hf, he⟩
          · obtain ⟨hl, hrest⟩ := ih hr hmem'
            exact ⟨List.mem_cons_of_mem _ hl, hrest⟩

theorem getChangesGo_error {fields : List (PField Val)} {r : Record Val}
    {l : List String} {e : String}
    (h : getChangesGo fields r l = .error e) :
    ∃ k ∈ l, ∃ f, findField fields k = some f ∧ f.enc (r.values f.ident) = .error e := by
  induction l with
  | nil => cases h
  | cons k rest ih =>
    cases hf : findField fields k with
    | none =>
      simp only [getChangesGo, hf] at h
      obtain ⟨k', hk', hrest⟩ := ih h
      exact ⟨k', List.mem_cons_of_mem _ hk', hrest⟩
    | some f =>
      cases he : f.enc (r.values f.ident) with
      | error e' =>
        simp only [getChangesGo, hf, he] at h
        cases h
        exact ⟨k, List.mem_cons_self _ _, f, hf, he⟩
      | ok s =>
        cases hr : getChangesGo fields r rest with
        | error e' =>
          simp only [getChangesGo, hf, he, hr] at h
          cases h
          obtain ⟨k', hk', hrest⟩ := ih hr
          exact ⟨k', List.mem_cons_of_mem _ hk', hrest⟩
        | ok tl =>
          simp only [getChangesGo, hf, he, hr] at h
          exact Except.noConfusion h

theorem hitsField_true {fields : List (PField Val)} {id : String} {e : String × String}
    (h : hitsField fields id e = true) :
    ∃ f, findField fields e.1 = some f ∧ f.ident = id ∧ decodeOk fields e = true := by
  cases hf : findField fields e.1 with
  | none => simp [hitsField, hf] at h
  | some f =>
    simp only [hitsField, hf] at h
    by_cases hi : f.ident = id
    · rw [if_pos hi] at h
      exact ⟨f, rfl, hi, h⟩
    · rw [if_neg hi] at h
      cases h

theorem from_map_values_of_entry {fields : List (PField Val)} [Inhabited Val]
    {skipped : List (SkField Val)} {m : List (String × String)} {k v : String}
    {f : PField Val} {x : Val}
    (hid : (fields.map PField.ident).Nodup) (hkeys : (m.map Prod.fst).Nodup)
    (hmem : (k, v) ∈ m) (hfind : findField fields k = some f) (hdec : f.dec v = .ok x) :
    (from_map fields skipped m).value.values f.ident = x := by
  obtain ⟨m1, m2, rfl⟩ := List.append_of_mem hmem
  have hknotin : k ∉ m2.map Prod.fst := by
    rw [List.map_append, List.map_cons] at hkeys
    have h2 := (List.nodup_append.mp hkeys).2.1
    exact (List.nodup_cons.mp h2).1
  have hnohit : ∀ e ∈ m2, hitsField fields f.ident e = false := by
    intro e he
    cases hh : hitsField fields f.ident e with
    | false => rfl
    | true =>
      obtain ⟨f', hf', hi', _⟩ := hitsField_true hh
      obtain ⟨hk', hfmem'⟩ := findField_eq_some hf'
      obtain ⟨hkk, hfmem⟩ := findField_eq_some hfind
      have hff : f' = f := List.inj_on_of_nodup_map hid hfmem' hfmem hi'
      subst hff
      have he1 : e.1 = k := by rw [← hk', hkk]
      exact absurd (he1 ▸ List.mem_map_of_mem Prod.fst he) hknotin
  simp only [from_map]
  rw [List.foldl_append, List.foldl_cons, foldl_values_no_hit hnohit]
  exact loadStep_values_hit hfind hdec

theorem defaultRecord_values_field {fields : List (PField Val)} [Inhabited Val]
    {skipped : List (SkField Val)} {f : PField Val}
    (hnd : (fields.map PField.ident).Nodup) (hf : f ∈ fields) :
    (defaultRecord fields skipped).values f.ident = resolvedDefault f := by
  simp [defaultRecord, find?_ident_of_nodup hnd hf]

theorem defaultRecord_values_skipped {fields : List (PField Val)} [Inhabited Val]
    {skipped : List (SkField Val)} {id : String} {w : Val}
    (hnone : ∀ g ∈ fields, g.ident ≠ id)
    (hfind : skipped.find? (fun s => s.ident = id) = some ⟨id, w⟩) :
    (defaultRecord fields skipped).values id = w := by
  have h1 : fields.find? (fun g => g.ident = id) = none :=
    List.find?_eq_none.mpr (by simpa using hnone)
  simp [defaultRecord, h1, hfind]

theorem processStruct_cons_skip (d : FieldDecl Val) (rest : List (FieldDecl Val))
    (h : d.skip = true) :
    processStruct (d :: rest) =
      ((processStruct rest).1, ⟨d.ident, d.intrinsic⟩ :: (processStruct rest).2) := by
  rcases hps : processStruct rest with ⟨fs, sks⟩
  simp [processStruct, hps, h]

theorem processStruct_cons_keep (d : FieldDecl Val) (rest : List (FieldDecl Val))
    (h : d.skip = false) :
    processStruct (d :: rest) =
      (⟨d.ident, d.attr_key, d.attr_default_fn, d.attr_default_lit, d.intrinsic, d.dec, d.enc⟩
          :: (processStruct rest).1,
        (processStruct rest).2) := by
  rcases hps : processStruct rest with ⟨fs, sks⟩
  simp [processStruct, hps, h]

theorem processStruct_fst_idents (decls : List (FieldDecl Val)) :
    (processStruct decls).1.map PField.ident =
      (decls.filter (fun d => !d.skip)).map FieldDecl.ident := by
  induction decls with
  | nil => rfl
  | cons d rest ih =>
    by_cases hs : d.skip = true
    · rw [processStruct_cons_skip _ _ hs]
      simp [hs, ih]
    · rw [processStruct_cons_keep _ _ (by simpa using hs)]
      simp only [List.map_cons]
      rw [List.filter_cons_of_pos (by simpa using hs)]
      simp [ih]

theorem processStruct_keys (decls : List (FieldDecl Val)) :
    perstruct_keys (processStruct decls).1 =
      (decls.filter (fun d => !d.skip)).map (fun d => d.attr_key.getD d.ident) := by
  induction decls with
  | nil => rfl
  | cons d rest ih =>
    by_cases hs : d.skip = true
    · rw [processStruct_cons_skip _ _ hs]
      simpa [hs] using ih
    · rw [processStruct_cons_keep _ _ (by simpa using hs)]
      rw [List.filter_cons_of_pos (by simpa using hs)]
      simpa [perstruct_keys, keyOf] using ih

theorem mem_fst_ident {decls : List (FieldDecl Val)} {g : PField Val}
    (h : g ∈ (processStruct decls).1) : g.ident ∈ decls.map FieldDecl.ident := by
  have hmem : g.ident ∈ (processStruct decls).1.map PField.ident :=
    List.mem_map_of_mem _ h
  rw [processStruct_fst_idents] at hmem
  obtain ⟨d, hd, hdi⟩ := List.mem_map.mp hmem
  exact List.mem_map.mpr ⟨d, (List.mem_filter.mp hd).1, hdi⟩

theorem processStruct_skip_find {decls : List (FieldDecl Val)} {d : FieldDecl Val}
    (hnd : (decls.map FieldDecl.ident).Nodup) (hd : d ∈ decls) (hs : d.skip = true) :
    (∀ g ∈ (processStruct decls).1, g.ident ≠ d.ident) ∧
    (processStruct decls).2.find? (fun s => s.ident = d.ident) = some ⟨d.ident, d.intrinsic⟩ := by
  induction decls with
  | nil => cases hd
  | cons a rest ih =>
    rw [List.map_cons] at hnd
    have hnd' : (rest.map FieldDecl.ident).Nodup := (List.nodup_cons.mp hnd).2
    have hanotin : a.ident ∉ rest.map FieldDecl.ident := (List.nodup_cons.mp hnd).1
    rcases List.mem_cons.mp hd with rfl | hmem
    · rw [processStruct_cons_skip _ _ hs]
      constructor
      · intro g hg heq
        exact hanotin (heq ▸ mem_fst_ident hg)
      · exact List.find?_cons_of_pos _ (by simp)
    · have hdident : d.ident ∈ rest.map FieldDecl.ident := List.mem_map_of_mem _ hmem
      have hne : a.ident ≠ d.ident := fun heq => hanotin (heq ▸ hdident)
      obtain ⟨ih1, ih2⟩ := ih hnd' hmem
      by_cases hask : a.skip = true
      · rw [processStruct_cons_skip _ _ hask]
        refine ⟨ih1, ?_⟩
        rw [List.find?_cons_of_neg _ (by simpa using hne)]
        exact ih2
      · rw [processStruct_cons_keep _ _ (by simpa using hask)]
        refine ⟨?_, ih2⟩
        intro g hg heq
        rcases List.mem_cons.mp hg with rfl | hg'
        · exact hne heq
        · exact ih1 g hg' heq

theorem from_map_unmatched_entry {fields : List (PField Val)} [Inhabited Val]
    (skipped : List (SkField Val)) (m1 m2 : List (String × String)) {k : String} (v : String)
    (hnone : findField fields k = none) :
    (from_map fields skipped (m1 ++ (k, v) :: m2)).value.values =
      (from_map fields skipped (m1 ++ m2)).value.values ∧
    (from_map fields skipped (m1 ++ (k, v) :: m2)).value.dirty =
      (from_map fields skipped (m1 ++ m2)).value.dirty ∧
    (from_map fields skipped (m1 ++ (k, v) :: m2)).deserialization_errors =
      (from_map fields skipped (m1 ++ m2)).deserialization_errors := by
  simp only [from_map]
  rw [List.foldl_append, List.foldl_append, List.foldl_cons]
  apply foldl_core_congr
  · simp [loadStep, hnone]
  · simp [loadStep, hnone]
  · simp [loadStep, hnone]

end Lemmas

section Claims

/-- C1: for every input map, the `#[perstruct]` `from_map` returns a record
whose dirty set holds exactly the non-excluded external keys minus those
keys whose map entry was successfully decoded: a key stays dirty when its
entry fails to decode or is absent from the map. -/
theorem c1_from_map_dirty {Val : Type} [Inhabited Val] (fields : List (PField Val))
    (skipped : List (SkField Val)) (m : List (String × String)) (k : String) :
    k ∈ (from_map fields skipped m).value.dirty ↔
      (k ∈ perstruct_keys fields ∧ ¬ ∃ v, (k, v) ∈ m ∧ decodeOk fields (k, v) = true) := by
  rw [from_map_dirty_mem]
  constructor
  · rintro ⟨hk, hall⟩
    refine ⟨hk, ?_⟩
    rintro ⟨v, hv, hok⟩
    exact hall (k, v) hv ⟨rfl, hok⟩
  · rintro ⟨hk, hnex⟩
    refine ⟨hk, ?_⟩
    rintro ⟨k', v⟩ he ⟨he1, hok⟩
    subst he1
    exact hnex ⟨v, he, hok⟩

/-- C3 counterexample: in the `#[settings]` variant the dirty collection
is a `Vec` and every setter call pushes, so after calling `set_a` twice
the key `"b"` appears twice in the `perstruct_get_changes` output,
refuting "no key ever appears twice in the result, regardless of how many
times its setter was called". -/
theorem c3_counterexample :
    settings_get_changes [fieldA] c3Rec = some [("b", "2"), ("b", "2")] ∧
    ¬ (List.map Prod.fst [("b", "2"), ("b", "2")]).Nodup := by
  constructor
  · rfl
  · decide

/-- C3 amended: in the `#[perstruct]` variant (whose dirty collection is a
`HashSet`, modelled as a duplicate-free list), a successful
`perstruct_get_changes` yields exactly one entry per dirty key that is a
field's external key, in dirty-set iteration order, with no key appearing
twice; in the `#[settings]` variant a key can appear once per setter call
since the last acknowledge. -/
theorem c3_amended {Val : Type} (fields : List (PField Val)) (r : Record Val)
    (ch : List (String × String)) (hnd : r.dirty.Nodup)
    (h : perstruct_get_changes fields r = .ok ch) :
    (ch.map Prod.fst).Nodup ∧
    ch.map Prod.fst = r.dirty.filter (fun k => (findField fields k).isSome) := by
  have hk := getChangesGo_ok_keys h
  exact ⟨hk ▸ hnd.filter _, hk⟩

/-- C3 witness: concrete instance of the amended claim after two setter
calls on the `#[perstruct]` variant. -/
theorem c3_amended_witness :
    (List.map Prod.fst [("b", "2")]).Nodup ∧
    List.map Prod.fst [("b", "2")] =
      c3PRec.dirty.filter (fun k => (findField [fieldA] k).isSome) :=
  c3_amended [fieldA] c3PRec [("b", "2")] (by decide) rfl

/-- C4 counterexample: the `#[settings]` variant's `perstruct_get_changes`
calls `serde_json::to_string(..).unwrap()`, so an encode error is a panic
(modelled as `none`) rather than data, refuting "no runtime operation of
the generated record ever panics". -/
theorem c4_counterexample :
    settings_get_changes [fieldBad] c4Rec = none := rfl

/-- C4 amended: in the `#[perstruct]` variant every recoverable runtime
error is returned as data: a failing decode during `from_map` lands in
the `deserialization_errors` list, and a `perstruct_get_changes` failure
is an `Err` value describing some dirty field's encode error; the
`#[settings]` variant's `perstruct_get_changes` instead panics on encode
error. -/
theorem c4_amended {Val : Type} [Inhabited Val] (fields : List (PField Val))
    (skipped : List (SkField Val)) (m : List (String × String)) (k v emsg : String)
    (f : PField Val) (r : Record Val)
    (hmem : (k, v) ∈ m) (hfind : findField fields k = some f)
    (hdec : f.dec v = .error emsg) :
    (k, emsg) ∈ (from_map fields skipped m).deserialization_errors ∧
    (∀ e2, perstruct_get_changes fields r = .error e2 →
      ∃ k' ∈ r.dirty, ∃ f', findField fields k' = some f' ∧
        f'.enc (r.values f'.ident) = .error e2) := by
  constructor
  · rw [from_map_errors]
    exact List.mem_filterMap.mpr ⟨(k, v), hmem, by simp [errOf, hfind, hdec]⟩
  · intro e2 herr
    exact getChangesGo_error herr

/-- C4 witness: concrete instance of the amended claim. -/
theorem c4_amended_witness :
    ("b", "invalid integer: x") ∈
      (from_map [fieldA] ([] : List (SkField Int)) [("b", "x")]).deserialization_errors :=
  (c4_amended [fieldA] [] [("b", "x")] "b" "x" "invalid integer: x" fieldA
    (defaultRecord [fieldA] []) (List.mem_cons_self _ _) rfl rfl).1

/-- C6: in both variants, `set_f(v)` unconditionally replaces the field's
value with `v` (even when `v` equals the previous value, since the code
has no equality test) and puts `f`'s external key into the dirty
collection, leaving every other field's value slot unchanged. -/
theorem c6_set_marks_dirty {Val : Type} (f : PField Val) (v : Val) (r : Record Val) :
    (setField f v r).values f.ident = v ∧
    keyOf f ∈ (setField f v r).dirty ∧
    (∀ id, id ≠ f.ident → (setField f v r).values id = r.values id) ∧
    (settings_setField f v r).values f.ident = v ∧
    keyOf f ∈ (settings_setField f v r).dirty ∧
    (∀ id, id ≠ f.ident → (settings_setField f v r).values id = r.values id) := by
  refine ⟨by simp [setField, setValue], ?_, ?_, by simp [settings_setField, setValue], ?_, ?_⟩
  · simp [setField, mem_insertSet]
  · intro id hne
    simp [setField, setValue, hne]
  · simp [settings_setField]
  · intro id hne
    simp [settings_setField, setValue, hne]

/-- C6 witness: setting field `a` (key `"b"`) to 7 on a default record. -/
theorem c6_witness :
    (setField fieldA 7 (defaultRecord [fieldA] [])).values "a" = 7 ∧
    "b" ∈ (setField fieldA 7 (defaultRecord [fieldA] [])).dirty ∧
    (setField fieldA 7 (defaultRecord [fieldA] [])).values "zzz" =
      (defaultRecord [fieldA] ([] : List (SkField Int))).values "zzz" :=
  have h := c6_set_marks_dirty fieldA 7 (defaultRecord [fieldA] [])
  ⟨h.1, h.2.1, h.2.2.1 "zzz" (by decide)⟩

/-- C7 counterexample: on a field carrying both a `default` literal (1)
and a `default_fn` attribute (producing 2), `default()` uses the
`default_fn`, refuting the claimed priority "the literal default if
given, else the zero-argument default function". -/
theorem c7_counterexample :
    fieldBoth.default_lit = some 1 ∧
    (defaultRecord [fieldBoth] ([] : List (SkField Int))).values "x" = 2 ∧
    (2 : Int) ≠ 1 :=
  ⟨rfl, rfl, by decide⟩

/-- C7 amended: `default()` produces a record with an empty dirty set in
which every field holds its resolved default, resolved in this priority
order: the zero-argument default function if given, else the literal
default if given, else the type's intrinsic zero/empty value. -/
theorem c7_amended {Val : Type} [Inhabited Val] (fields : List (PField Val))
    (skipped : List (SkField Val)) (f : PField Val)
    (hnd : (fields.map PField.ident).Nodup) (hf : f ∈ fields) :
    (defaultRecord fields skipped).dirty = [] ∧
    (defaultRecord fields skipped).values f.ident =
      (match f.default_fn with
       | some fn => fn ()
       | none =>
         match f.default_lit with
         | some v => v
         | none => f.intrinsic) :=
  ⟨rfl, defaultRecord_values_field hnd hf⟩

/-- C7 witness: in the three-field schema, `bar` (literal default 2, no
default function) resolves to 2 and the dirty set is empty. -/
theorem c7_amended_witness :
    (defaultRecord exFields ([] : List (SkField Int))).dirty = [] ∧
    (defaultRecord exFields ([] : List (SkField Int))).values "bar" = 2 :=
  have h := c7_amended exFields [] fieldBar (by decide)
    (List.mem_cons_of_mem _ (List.mem_cons_of_mem _ (List.mem_cons_self _ _)))
  ⟨h.1, h.2⟩

/-- C2: `from_map` isolates decode failures per field: for a map whose
entries all target fields and decode successfully except one malformed
entry, the well-formed fields hold the decoded values, exactly one entry
(carrying the malformed field's external key) lands in
`deserialization_errors`, the malformed field keeps its default, and the
whole operation is total (it returns this result rather than aborting). -/
theorem c2_error_isolation {Val : Type} [Inhabited Val] (fields : List (PField Val))
    (skipped : List (SkField Val)) (m : List (String × String))
    (kbad vbad msg : String) (fbad : PField Val)
    (hid : (fields.map PField.ident).Nodup)
    (hkeys : (m.map Prod.fst).Nodup)
    (hmem : (kbad, vbad) ∈ m)
    (hfind : findField fields kbad = some fbad)
    (hbad : fbad.dec vbad = .error msg)
    (hgood : ∀ e ∈ m, e.1 ≠ kbad →
      ∃ f x, findField fields e.1 = some f ∧ f.dec e.2 = .ok x) :
    (from_map fields skipped m).deserialization_errors = [(kbad, msg)] ∧
    (∀ e ∈ m, ∀ (f : PField Val) (x : Val), findField fields e.1 = some f →
      f.dec e.2 = .ok x → (from_map fields skipped m).value.values f.ident = x) ∧
    (from_map fields skipped m).value.values fbad.ident = resolvedDefault fbad ∧
    (from_map fields skipped m).unknown_fields = [] := by
  have hkonce : ∀ e ∈ m, e.1 = kbad → e = (kbad, vbad) := by
    intro e he h1
    exact List.inj_on_of_nodup_map hkeys he hmem (by simpa using h1)
  refine ⟨?_, ?_, ?_, ?_⟩
  · rw [from_map_errors]
    obtain ⟨m1, m2, rfl⟩ := List.append_of_mem hmem
    have hkeys' := hkeys
    rw [List.map_append, List.map_cons] at hkeys'
    obtain ⟨-, hk2', hdisj⟩ := List.nodup_append.mp hkeys'
    have hk2 : kbad ∉ m2.map Prod.fst := (List.nodup_cons.mp hk2').1
    have hk1 : kbad ∉ m1.map Prod.fst := fun hm1 => hdisj hm1 (List.mem_cons_self _ _)
    have hnil : ∀ e ∈ m1 ++ m2, errOf fields e = none := by
      intro e he'
      have hne : e.1 ≠ kbad := by
        intro h1
        rcases List.mem_append.mp he' with h | h
        · exact hk1 (h1 ▸ List.mem_map_of_mem Prod.fst h)
        · exact hk2 (h1 ▸ List.mem_map_of_mem Prod.fst h)
      have hemem : e ∈ m1 ++ (kbad, vbad) :: m2 := by
        rcases List.mem_append.mp he' with h | h
        · exact List.mem_append.mpr (Or.inl h)
        · exact List.mem_append.mpr (Or.inr (List.mem_cons_of_mem _ h))
      obtain ⟨f, x, hf, hx⟩ := hgood e hemem hne
      simp [errOf, hf, hx]
    rw [List.filterMap_append, List.filterMap_cons]
    have hbadentry : errOf fields (kbad, vbad) = some (kbad, msg) := by
      simp [errOf, hfind, hbad]
    rw [hbadentry]
    rw [List.filterMap_eq_nil_iff.mpr (fun e he' => hnil e (List.mem_append.mpr (Or.inl he'))),
      List.filterMap_eq_nil_iff.mpr (fun e he' => hnil e (List.mem_append.mpr (Or.inr he')))]
    simp
  · intro e he f x hf hx
    exact from_map_values_of_entry hid hkeys he hf hx
  · have hfbadmem : fbad ∈ fields := (findField_eq_some hfind).2
    have hkey : keyOf fbad = kbad := (findField_eq_some hfind).1
    have hnohit : ∀ e ∈ m, hitsField fields fbad.ident e = false := by
      intro e he
      cases hh : hitsField fields fbad.ident e with
      | false => rfl
      | true =>
        obtain ⟨f', hf', hi', hok⟩ := hitsField_true hh
        have hf'mem : f' ∈ fields := (findField_eq_some hf').2
        have hff : f' = fbad := List.inj_on_of_nodup_map hid hf'mem hfbadmem hi'
        subst hff
        have he1 : e.1 = kbad := by rw [← (findField_eq_some hf').1, hkey]
        rw [hkonce e he he1] at hok
        simp [decodeOk, hfind, hbad] at hok
    rw [from_map_values_no_hit hnohit]
    exact defaultRecord_values_field hid hfbadmem
  · rw [from_map_unknown]
    apply List.filterMap_eq_nil_iff.mpr
    intro e he
    by_cases hne : e.1 = kbad
    · rw [hkonce e he hne]
      simp [unknownOf, hfind]
    · obtain ⟨f, x, hf, hx⟩ := hgood e he hne
      simp [unknownOf, hf]

/-- C2 witness: the three-field schema loaded from a map in which only
`foo`'s payload is malformed. -/
theorem c2_witness :
    (from_map exFields ([] : List (SkField Int)) c2Map).deserialization_errors =
      [("foo", "invalid integer: nope")] ∧
    (from_map exFields ([] : List (SkField Int)) c2Map).value.values "foo" = 5 :=
  have h := c2_error_isolation exFields [] c2Map "foo" "nope" "invalid integer: nope" fieldFoo
    (by decide) (by decide) (by decide) rfl rfl
    (by
      intro e he hne
      rcases List.mem_cons.mp he with rfl | he2
      · exact ⟨fieldA, 3, rfl, rfl⟩
      rcases List.mem_cons.mp he2 with rfl | he3
      · exact absurd rfl hne
      rcases List.mem_cons.mp he3 with rfl | he4
      · exact ⟨fieldBar, 7, rfl, rfl⟩
      · cases he4)
  ⟨h.1, h.2.2.1⟩

/-- C5: a map entry whose key matches no field's external key is reported
verbatim in `unknown_fields` and has no effect on the loaded record: the
field values, the dirty set and the error list are the same as for the
map without that entry. -/
theorem c5_unknown_reporting {Val : Type} [Inhabited Val] (fields : List (PField Val))
    (skipped : List (SkField Val)) (m1 m2 : List (String × String)) (k v : String)
    (hnone : findField fields k = none) :
    k ∈ (from_map fields skipped (m1 ++ (k, v) :: m2)).unknown_fields ∧
    (from_map fields skipped (m1 ++ (k, v) :: m2)).value.values =
      (from_map fields skipped (m1 ++ m2)).value.values ∧
    (from_map fields skipped (m1 ++ (k, v) :: m2)).value.dirty =
      (from_map fields skipped (m1 ++ m2)).value.dirty ∧
    (from_map fields skipped (m1 ++ (k, v) :: m2)).deserialization_errors =
      (from_map fields skipped (m1 ++ m2)).deserialization_errors := by
  obtain ⟨hv, hd, he⟩ := from_map_unmatched_entry skipped m1 m2 v hnone
  refine ⟨?_, hv, hd, he⟩
  rw [from_map_unknown]
  exact List.mem_filterMap.mpr ⟨(k, v), by simp, by simp [unknownOf, hnone]⟩

/-- C5 witness: loading a map with the unknown key `"zzz"`. -/
theorem c5_witness :
    "zzz" ∈ (from_map [fieldA] ([] : List (SkField Int))
        [("zzz", "0"), ("b", "3")]).unknown_fields ∧
    (from_map [fieldA] ([] : List (SkField Int)) [("zzz", "0"), ("b", "3")]).value.values =
      (from_map [fieldA] ([] : List (SkField Int)) [("b", "3")]).value.values :=
  have h := c5_unknown_reporting [fieldA] [] [] [("b", "3")] "zzz" "0" rfl
  ⟨h.1, h.2.1⟩

/-- C8: feeding a successful `perstruct_get_changes` output back into
`from_map` reproduces the record's values on every field whose external
key appears in the changes, provided the codec decodes what it encodes. -/
theorem c8_round_trip {Val : Type} [Inhabited Val] (fields : List (PField Val))
    (skipped : List (SkField Val)) (r : Record Val) (ch : List (String × String))
    (hid : (fields.map PField.ident).Nodup)
    (hnd : r.dirty.Nodup)
    (hrt : ∀ f ∈ fields, ∀ (v : Val) (s : String), f.enc v = .ok s → f.dec s = .ok v)
    (hch : perstruct_get_changes fields r = .ok ch) :
    ∀ k s, (k, s) ∈ ch → ∀ f, findField fields k = some f →
      (from_map fields skipped ch).value.values f.ident = r.values f.ident := by
  intro k s hmem f hfind
  obtain ⟨hkd, f', hfind', henc'⟩ := getChangesGo_mem hch hmem
  have hff : f = f' := Option.some.inj (hfind.symm.trans hfind')
  subst hff
  have hfmem : f ∈ fields := (findField_eq_some hfind).2
  have hdec : f.dec s = .ok (r.values f.ident) := hrt f hfmem _ s henc'
  have hchnd : (ch.map Prod.fst).Nodup := by
    rw [getChangesGo_ok_keys hch]
    exact hnd.filter _
  exact from_map_values_of_entry hid hchnd hmem hfind hdec

/-- C8 witness: round trip of a one-field string record through its own
change list. -/
theorem c8_witness :
    (from_map [fieldStr] ([] : List (SkField String)) [("b", "hello")]).value.values "a" =
      c8Rec.values "a" :=
  c8_round_trip [fieldStr] [] c8Rec [("b", "hello")] (by decide) (by decide)
    (by
      intro f hf v s h
      rcases List.mem_cons.mp hf with rfl | hbad
      · injection h with h2
        subst h2
        rfl
      · cases hbad)
    rfl "b" "hello" (by decide) fieldStr rfl

/-- C9: the dirty-set invariant — every dirty key is the external key of
some non-excluded field — holds after `default()` and `from_map`, and is
preserved by `set_*`, `update_*` and `perstruct_saved`; consequently the
wildcard arm of the `perstruct_get_changes` key dispatch is unreachable
and a successful export contains exactly one entry per dirty key. -/
theorem c9_dirty_invariant {Val : Type} [Inhabited Val] (fields : List (PField Val))
    (skipped : List (SkField Val)) (f : PField Val) (v : Val) (g : Val → Val)
    (r : Record Val) (m : List (String × String))
    (hf : f ∈ fields) (hinv : DirtyInv fields r) :
    DirtyInv fields (defaultRecord fields skipped) ∧
    DirtyInv fields (from_map fields skipped m).value ∧
    DirtyInv fields (setField f v r) ∧
    DirtyInv fields (updateField f g r) ∧
    DirtyInv fields (perstruct_saved r) ∧
    (∀ ch, perstruct_get_changes fields r = .ok ch → ch.map Prod.fst = r.dirty) := by
  refine ⟨?_, ?_, ?_, ?_, ?_, ?_⟩
  · intro k hk
    cases hk
  · intro k hk
    have hmem := ((from_map_dirty_mem skipped m k).mp hk).1
    obtain ⟨f', hf', hkey⟩ := List.mem_map.mp hmem
    exact ⟨f', hf', hkey⟩
  · intro k hk
    rcases mem_insertSet.mp hk with hk' | rfl
    · exact hinv k hk'
    · exact ⟨f, hf, rfl⟩
  · intro k hk
    rcases mem_insertSet.mp hk with hk' | rfl
    · exact hinv k hk'
    · exact ⟨f, hf, rfl⟩
  · intro k hk
    cases hk
  · intro ch hch
    rw [getChangesGo_ok_keys hch]
    apply List.filter_eq_self.mpr
    intro k hk
    exact findField_isSome (hinv k hk)

/-- C9 witness: the invariant facts instantiated on the one-field schema
with a fresh default record. -/
theorem c9_witness :
    DirtyInv [fieldA] (defaultRecord [fieldA] ([] : List (SkField Int))) ∧
    DirtyInv [fieldA] (from_map [fieldA] ([] : List (SkField Int)) [("b", "3")]).value ∧
    DirtyInv [fieldA] (setField fieldA 1 (defaultRecord [fieldA] [])) ∧
    List.map Prod.fst ([] : List (String × String)) =
      (defaultRecord [fieldA] ([] : List (SkField Int))).dirty :=
  have h := c9_dirty_invariant [fieldA] [] fieldA 1 (fun x => x)
    (defaultRecord [fieldA] []) [("b", "3")] (List.mem_cons_self _ _)
    (fun k hk => absurd hk (List.not_mem_nil k))
  ⟨h.1, h.2.1, h.2.2.1, h.2.2.2.2.2 [] rfl⟩

/-- C10 counterexample: `process_struct` has no key-collision check, so a
legal schema may give a non-skipped field the external key `"secret"`
while the skipped field is named `secret`.  A map entry under `"secret"`
is then decoded into the other field — `unknown_fields` is empty and the
record changes — and a `perstruct_get_changes` entry can carry
`"secret"`, refuting the claim's "reported as an unknown field" and
"never appears in get_changes output" assertions as stated. -/
theorem c10_counterexample :
    (from_map (processStruct collDecls).1 (processStruct collDecls).2
        [("secret", "3")]).unknown_fields = [] ∧
    (from_map (processStruct collDecls).1 (processStruct collDecls).2
        [("secret", "3")]).value.values "a" = 3 ∧
    perstruct_get_changes (processStruct collDecls).1 c10Rec = .ok [("secret", "3")] :=
  ⟨rfl, rfl, rfl⟩

/-- C10 amended: a `skip` field's `key`/`default`/`default_fn` attributes
are dropped by `process_struct`: `default()` initialises the field with
the type's intrinsic `Default::default()`, the field contributes nothing
to `perstruct_keys()`, and — provided no non-skipped field's external key
equals the skipped field's name — a map entry under its name is reported
as an unknown field and it never appears in `perstruct_get_changes`
output (if another field reuses that name as its key, the entry is
decoded into that field and exported under that name instead). -/
theorem c10_skip_ignored {Val : Type} [Inhabited Val] (decls : List (FieldDecl Val))
    (d : FieldDecl Val) (r : Record Val) (m1 m2 : List (String × String)) (v : String)
    (hnd : (decls.map FieldDecl.ident).Nodup)
    (hd : d ∈ decls) (hs : d.skip = true)
    (hnk : d.ident ∉ perstruct_keys (processStruct decls).1) :
    (defaultRecord (processStruct decls).1 (processStruct decls).2).values d.ident =
      d.intrinsic ∧
    perstruct_keys (processStruct decls).1 =
      (decls.filter (fun x => !x.skip)).map (fun x => x.attr_key.getD x.ident) ∧
    d.ident ∈ (from_map (processStruct decls).1 (processStruct decls).2
        (m1 ++ (d.ident, v) :: m2)).unknown_fields ∧
    (∀ ch, perstruct_get_changes (processStruct decls).1 r = .ok ch →
      ∀ p ∈ ch, p.1 ≠ d.ident) := by
  obtain ⟨hno, hfind⟩ := processStruct_skip_find hnd hd hs
  have hnone : findField (processStruct decls).1 d.ident = none := by
    rw [findField_eq_none_iff]
    intro f hfm heq
    exact hnk (heq ▸ List.mem_map_of_mem keyOf hfm)
  refine ⟨?_, processStruct_keys decls, ?_, ?_⟩
  · exact defaultRecord_values_skipped hno hfind
  · rw [from_map_unknown]
    exact List.mem_filterMap.mpr ⟨(d.ident, v), by simp, by simp [unknownOf, hnone]⟩
  · intro ch hch p hp heq
    obtain ⟨-, f', hfindp, -⟩ := getChangesGo_mem hch (show (p.1, p.2) ∈ ch from hp)
    rw [heq, hnone] at hfindp
    cases hfindp

/-- C10 witness: the two-field declaration list whose second field is
skipped but carries `key`, `default` and `default_fn` attributes. -/
theorem c10_witness :
    (defaultRecord (processStruct exDecls).1 (processStruct exDecls).2).values "secret" = 0 ∧
    perstruct_keys (processStruct exDecls).1 = ["b"] ∧
    "secret" ∈ (from_map (processStruct exDecls).1 (processStruct exDecls).2
        ([] ++ ("secret", "0") :: [])).unknown_fields :=
  have h := c10_skip_ignored exDecls declSkip
    (defaultRecord (processStruct exDecls).1 (processStruct exDecls).2) [] [] "0"
    (by decide) (List.mem_cons_of_mem _ (List.mem_cons_self _ _)) rfl (by decide)
  ⟨h.1, h.2.1, h.2.2.1⟩

end Claims

end Perstruct
